import Mathlib

/-!
Shallow embedding of the `whatis` diagnostic utility (Rust) and proofs about
its result-aggregation and dual-rendering core.

Machine integers (`u8`, `u64`, `i32`, `usize`) are modelled as `Nat`/`Int`;
none of the verified operations can overflow, so no modular reduction is
needed.  Fallible Rust code (`anyhow::Result`) is modelled with
`Except String`.
-/

namespace Whatis

/-! ## network.rs -/

/-- Embeds `s.splitn(2, ':').next().unwrap()` from `list_dns_servers`
(src/network.rs): the part of `s` strictly before its first `':'`
(the whole of `s` when it has no `':'`). -/
def truncAtColon (s : String) : String :=
  ⟨s.data.takeWhile (fun c => c != ':')⟩

/-- Embeds Rust `Vec::dedup`: removes *consecutive* repeated elements,
keeping the first element of each run. -/
def dedupRust {α : Type} [DecidableEq α] : List α → List α
  | [] => []
  | [a] => [a]
  | a :: b :: t => if a = b then dedupRust (b :: t) else a :: dedupRust (b :: t)

/-- Embeds `network::list_dns_servers` (src/network.rs lines 32–48) on the
textual socket addresses of the configured nameservers: each address string
is truncated at its first `':'`, then `Vec::dedup` is applied. -/
def list_dns_servers (nameservers : List String) : List String :=
  dedupRust (nameservers.map truncAtColon)

/-! ## Structured (JSON) values

Model of the serde data model as far as this program uses it: the structured
projection of a command result is a tree of strings, integers, arrays and
(ordered) objects. -/

inductive JValue : Type where
  | str (s : String)
  | num (n : Int)
  | arr (xs : List JValue)
  | obj (fields : List (String × JValue))

/-! ## output.rs -/

/-- Embeds the `Named` enum (src/output.rs): the named-value wrapper for
single-string facts.  The source defines exactly these three variants. -/
inductive Named : Type where
  | Hostname (value : String)
  | Username (value : String)
  | DeviceName (value : String)
deriving DecidableEq

/-- Embeds the `NamedKind` enum (src/output.rs).  The source defines exactly
these three variants; `system.rs` nevertheless names `NamedKind::Os` and
`NamedKind::Architecture`, which do not exist. -/
inductive NamedKind : Type where
  | Hostname
  | Username
  | DeviceName
deriving DecidableEq

/-- Embeds `Named::value` (src/output.rs). -/
def Named.value : Named → String
  | .Hostname v | .Username v | .DeviceName v => v

/-- Embeds `impl Display for Named` (src/output.rs): the bare value string. -/
def Named.display (n : Named) : String := n.value

/-- The field-kind key under which `impl Serialize for Named` (src/output.rs)
stores the value. -/
def Named.key : Named → String
  | .Hostname _ => "hostname"
  | .Username _ => "username"
  | .DeviceName _ => "device_name"

/-- Embeds `impl Serialize for Named` (src/output.rs): a single-entry map
from the field kind to the value. -/
def Named.serialize (n : Named) : JValue :=
  .obj [(n.key, .str n.value)]

/-- Embeds `create_named` (src/output.rs): wraps an already-produced string
under the requested kind; it never fails. -/
def create_named (value : String) : NamedKind → Except String Named
  | .Hostname => .ok (.Hostname value)
  | .Username => .ok (.Username value)
  | .DeviceName => .ok (.DeviceName value)

/-! ## datetime.rs -/

/-- Embeds the `Date` struct (src/datetime.rs).  `day_number` and
`week_number` are `u8` in the source and `year` is `i32`; the values this
program stores (day 1–31, week 0–53, calendar years) are nowhere near the
machine-integer bounds. -/
structure Date : Type where
  day_name : String
  day_number : Nat
  month_name : String
  year : Int
  week_number : Nat
deriving DecidableEq

/-- Embeds `impl Display for Date` (src/datetime.rs): the four sequential
`write!` calls. -/
def Date.display (d : Date) : String :=
  d.day_name ++ (", " ++ toString d.day_number ++ " " ++ d.month_name)
    ++ (", " ++ toString d.year) ++ (", week " ++ toString d.week_number)

/-- Embeds `#[derive(Serialize)]` for `Date` (src/datetime.rs): an object
with the five fields in declaration order. -/
def Date.serialize (d : Date) : JValue :=
  .obj [("day_name", .str d.day_name), ("day_number", .num d.day_number),
        ("month_name", .str d.month_name), ("year", .num d.year),
        ("week_number", .num d.week_number)]

/-! ## storage.rs -/

/-- Modelled from the spec: `format::human_readable_size` lives in the
`format` module, which is not under src/; the spec (§4.3) only requires a
human-readable size string for the byte count, so it is modelled as the byte
count followed by a unit marker.  The claims settled here do not depend on
its exact shape. -/
def human_readable_size (bytes : Nat) : String :=
  toString bytes ++ " B"

/-- Embeds the `DiskInfo` struct (src/storage.rs); `total_space` and
`free_space` are `u64` in the source. -/
structure DiskInfo : Type where
  name : String
  type_ : String
  total_space : Nat
  free_space : Nat
deriving DecidableEq

/-- The value of the IEEE-754 double expression
`(free as f64 / total as f64 * 100.0).round()` from `impl Display for
DiskInfo` (src/storage.rs): `NaN` (0/0), `+∞` (positive/0), or a rounded
number. -/
inductive F64Percent : Type where
  | nan
  | inf
  | val (n : Int)
deriving DecidableEq

/-- Embeds the percentage computation of `impl Display for DiskInfo`
(src/storage.rs line 54).  When `total ≠ 0` the quotient is modelled as the
exact rational (an IEEE-754 double can round the quotient of two huge `u64`s
differently only in the final ulp, which none of the settled claims touch);
when `total = 0`, IEEE-754 division yields NaN for `0/0` and `+∞` otherwise,
tracked symbolically.  `round` rounds ties away from zero, which agrees with
Mathlib's `round` on the non-negative values arising here. -/
def free_space_percentage (free total : Nat) : F64Percent :=
  if total = 0 then (if free = 0 then .nan else .inf)
  else .val (round ((free * 100 : ℚ) / total))

/-- Rust `f64::to_string` on the rounded percentage: `"NaN"`, `"inf"`, or the
integer rendered without a decimal point. -/
def F64Percent.toStr : F64Percent → String
  | .nan => "NaN"
  | .inf => "inf"
  | .val n => toString n

/-- IEEE-754 `<` against a finite bound: false for NaN, false for `+∞`. -/
def F64Percent.ltBound : F64Percent → Int → Bool
  | .nan, _ => false
  | .inf, _ => false
  | .val n, b => decide (n < b)

/-- ANSI styling as produced by the `colored` crate (an escape prefix, the
text, a reset suffix); with colors disabled the wrappers are simply absent,
which none of the settled claims depend on. -/
def styled (code : String) (s : String) : String :=
  "\x1b[" ++ code ++ "m" ++ s ++ "\x1b[0m"

/-- Embeds `impl Display for DiskInfo` (src/storage.rs lines 51–73): the
free-space threshold coloring and the final `write!`. -/
def DiskInfo.display (d : DiskInfo) : String :=
  let free_space := human_readable_size d.free_space
  let total_space := human_readable_size d.total_space
  let p := free_space_percentage d.free_space d.total_space
  let colored :=
    if p.ltBound 10 then (styled "31" free_space, styled "31" p.toStr)
    else if p.ltBound 20 then (styled "33" free_space, styled "33" p.toStr)
    else (styled "32" free_space, styled "32" p.toStr)
  styled "1;36" d.name ++ ", " ++ styled "97" d.type_ ++ ", " ++ colored.1
    ++ " free of " ++ total_space ++ " (" ++ colored.2 ++ "% free)"

/-- A disk as enumerated by `sysinfo` in `list_disks` (src/storage.rs): the
`OsStr` name is modelled as its byte content plus a flag recording whether
`to_str()` succeeds (UTF-8 validity). -/
structure RawDisk : Type where
  name : String
  nameValid : Bool
  type_ : String
  total_space : Nat
  free_space : Nat
deriving DecidableEq

/-- The key `unique_by(|disk| disk.name())` compares on: the `OsStr` name. -/
def diskKey (d : RawDisk) : String × Bool :=
  (d.name, d.nameValid)

/-- Worker for `Itertools::unique_by`: keeps an element iff its key has not
been seen before (first occurrence wins, order preserved). -/
def uniqueByGo {α β : Type} [DecidableEq β] (key : α → β) (seen : List β) :
    List α → List α
  | [] => []
  | x :: xs =>
      if key x ∈ seen then uniqueByGo key seen xs
      else x :: uniqueByGo key (key x :: seen) xs

/-- Embeds `Itertools::unique_by` as used in `list_disks` (src/storage.rs). -/
def uniqueBy {α β : Type} [DecidableEq β] (key : α → β) (l : List α) : List α :=
  uniqueByGo key [] l

/-- Embeds the per-disk closure of `list_disks` (src/storage.rs): `to_str()`
on a non-UTF-8 name fails and is turned into the error `"unknown"`. -/
def diskConv (d : RawDisk) : Except String DiskInfo :=
  if d.nameValid then .ok ⟨d.name, d.type_, d.total_space, d.free_space⟩
  else .error "unknown"

/-- The conversion on a valid disk, totalized. -/
def diskConvT (d : RawDisk) : DiskInfo :=
  ⟨d.name, d.type_, d.total_space, d.free_space⟩

/-- Embeds `collect::<Result<Vec<_>, _>>()` over an iterator of results:
left-to-right, first error wins. -/
def collectExcept {ε α : Type} : List (Except ε α) → Except ε (List α)
  | [] => .ok []
  | x :: xs =>
      match x with
      | .error e => .error e
      | .ok a =>
          match collectExcept xs with
          | .error e => .error e
          | .ok as => .ok (a :: as)

/-- Embeds `list_disks` (src/storage.rs lines 10–34) on the list of disks the
system reports, in enumeration order. -/
def list_disks (raw : List RawDisk) : Except String (List DiskInfo) :=
  collectExcept ((uniqueBy diskKey raw).map diskConv)

/-! ## system.rs -/

/-- Embeds the `Cpu` struct (src/system.rs); `core_count` is `usize` and
`frequency` (MHz) is `u64`. -/
structure Cpu : Type where
  brand : String
  core_count : Nat
  frequency : Nat
deriving DecidableEq

/-- Embeds `impl Display for Cpu` (src/system.rs): brand bold, core count
cyan, frequency green. -/
def Cpu.display (c : Cpu) : String :=
  styled "1" c.brand ++ ", " ++ styled "36" (toString c.core_count)
    ++ " cores running at " ++ styled "32" (toString c.frequency) ++ " GHz"

/-- Embeds `#[derive(Serialize)]` for `Cpu` (src/system.rs). -/
def Cpu.serialize (c : Cpu) : JValue :=
  .obj [("brand", .str c.brand), ("core_count", .num c.core_count),
        ("frequency", .num c.frequency)]

/-! ## main.rs -/

/-- Modelled from the spec: the `datetime::Time` struct is not under src/
(only its construction site in main.rs is).  Per §4.3 it carries a 24-hour
clock, a UTC offset and an NTP deviation in seconds, e.g.
`20:20:2 UTC +02:00 ±0.0672 seconds`. -/
structure Time : Type where
  time : String
  offset : String
  deviation : String
deriving DecidableEq

/-- Modelled from the spec: the text projection of `Time`, following the
spec's example `"20:20:2 UTC +02:00 ±0.0672 seconds"`. -/
def Time.display (t : Time) : String :=
  t.time ++ " UTC " ++ t.offset ++ " ±" ++ t.deviation ++ " seconds"

/-- Modelled from the spec (§4.3): the structured projection of `Time` is an
object with time, offset and deviation fields. -/
def Time.serialize (t : Time) : JValue :=
  .obj [("time", .str t.time), ("offset", .str t.offset),
        ("deviation", .str t.deviation)]

/-- Modelled from the spec: the `datetime::Datetime` struct is not under
src/; per the CLI help in main.rs it combines the date and the time
(`Saturday, 8 April, 2023, week 14 20:20:2 UTC +02:00 ±0.0684 seconds`). -/
structure Datetime : Type where
  date : Date
  time : Time
deriving DecidableEq

/-- Modelled from the spec: `Datetime` renders as the date followed by the
time, separated by a space. -/
def Datetime.display (dt : Datetime) : String :=
  dt.date.display ++ " " ++ dt.time.display

/-- Modelled from the spec: the structured projection of `Datetime` carries
its date and time components. -/
def Datetime.serialize (dt : Datetime) : JValue :=
  .obj [("date", dt.date.serialize), ("time", dt.time.serialize)]

/-- Embeds the `Commands` enum (src/main.rs): the ten subcommands. -/
inductive Commands : Type where
  | Date
  | Time
  | Datetime
  | Dns
  | Hostname
  | Username
  | DeviceName
  | Os
  | Architecture
  | Cpu
deriving DecidableEq

/-- Embeds the `OutputFormat` enum (src/main.rs). -/
inductive OutputFormat : Type where
  | Json
  | Text
deriving DecidableEq

/-- Embeds the `CommandResult` enum (src/main.rs lines 153–164): a closed
tagged union with one variant per command. -/
inductive CommandResult : Type where
  | Date (d : Date)
  | Time (t : Time)
  | Datetime (dt : Datetime)
  | Dns (servers : List String)
  | Hostname (n : Named)
  | Username (n : Named)
  | DeviceName (n : Named)
  | Os (n : Named)
  | Architecture (n : Named)
  | Cpu (c : Cpu)

/-- Embeds Rust `Vec::join("\n")` as used for the Dns variant: the separator
goes between adjacent elements, never at the end. -/
def joinNl : List String → String
  | [] => ""
  | [s] => s
  | s :: t :: l => s ++ "\n" ++ joinNl (t :: l)

/-- Embeds `impl Display for CommandResult` (src/main.rs lines 168–185):
the text projection, one arm per variant, no wildcard. -/
def CommandResult.display : CommandResult → String
  | .Date d => d.display
  | .Time t => t.display
  | .Datetime dt => dt.display
  | .Dns dns => joinNl dns
  | .Hostname n => n.display
  | .Username n => n.display
  | .DeviceName n => n.display
  | .Os n => n.display
  | .Architecture n => n.display
  | .Cpu c => c.display

/-- Embeds `impl Serialize for CommandResult` (src/main.rs lines 187–204):
the structured projection, one arm per variant, no wildcard. -/
def CommandResult.serialize : CommandResult → JValue
  | .Date d => d.serialize
  | .Time t => t.serialize
  | .Datetime dt => dt.serialize
  | .Dns dns => .arr (dns.map .str)
  | .Hostname n => n.serialize
  | .Username n => n.serialize
  | .DeviceName n => n.serialize
  | .Os n => n.serialize
  | .Architecture n => n.serialize
  | .Cpu c => c.serialize

/-- The per-command context phrases attached with `with_context` in `main`
(src/main.rs lines 93–148), verbatim — including the source's typos for the
device-name and architecture commands. -/
def contextPhrase : Commands → String
  | .Date => "looking up the system's date failed"
  | .Time => "looking up the system's time failed"
  | .Datetime => "looking up the system's datetime failed"
  | .Dns => "listing the system's dns servers failed"
  | .Hostname => "looking up the system's hostname failed"
  | .Username => "looking up the user's username failed"
  | .DeviceName => "looking up the systems' device name failed"
  | .Os => "looking up the system's OS name failed"
  | .Architecture => "looking up the CPU's architecture fialed"
  | .Cpu => "looking up the system's CPU information failed"

/-- Embeds `anyhow::Context::with_context`: layers a context message over a
failing result; anyhow renders the combined error as the context followed by
the underlying cause, modelled as concatenation with `": "`. -/
def withContext {α : Type} (ctx : String) : Except String α → Except String α
  | .error e => .error (ctx ++ ": " ++ e)
  | .ok a => .ok a

/-- The outcome of each probe call for one invocation: the probes are
external collaborators, so their results are the model's input. -/
structure Probes : Type where
  date : Except String Date
  time : Except String Time
  datetime : Except String Datetime
  dns : Except String (List String)
  hostname : Except String Named
  username : Except String Named
  device_name : Except String Named
  os : Except String Named
  architecture : Except String Named
  cpus : Except String Cpu

/-- Embeds the `match command` dispatch in `main` (src/main.rs lines
93–148): exactly one probe is consulted, its failure is wrapped with the
command's context phrase, and its success is wrapped in the matching
`CommandResult` variant. -/
def runCommand (p : Probes) : Commands → Except String CommandResult
  | .Date => (withContext (contextPhrase .Date) p.date).map CommandResult.Date
  | .Time => (withContext (contextPhrase .Time) p.time).map CommandResult.Time
  | .Datetime =>
      (withContext (contextPhrase .Datetime) p.datetime).map CommandResult.Datetime
  | .Dns => (withContext (contextPhrase .Dns) p.dns).map CommandResult.Dns
  | .Hostname =>
      (withContext (contextPhrase .Hostname) p.hostname).map CommandResult.Hostname
  | .Username =>
      (withContext (contextPhrase .Username) p.username).map CommandResult.Username
  | .DeviceName =>
      (withContext (contextPhrase .DeviceName) p.device_name).map
        CommandResult.DeviceName
  | .Os => (withContext (contextPhrase .Os) p.os).map CommandResult.Os
  | .Architecture =>
      (withContext (contextPhrase .Architecture) p.architecture).map
        CommandResult.Architecture
  | .Cpu => (withContext (contextPhrase .Cpu) p.cpus).map CommandResult.Cpu

/-- What one invocation emits on stdout: nothing, a text rendering, or a
structured rendering. -/
inductive Rendered : Type where
  | text (s : String)
  | json (v : JValue)

/-- Embeds `main` (src/main.rs lines 86–149): with no command selected it is
a no-op; otherwise the one probe is run, a failure (already wrapped with its
context phrase) is propagated as the process error — `Except.ok` corresponds
to exit code zero, `Except.error` to a nonzero exit — and a success is
rendered by the projection selected by the format flag. -/
def mainModel (p : Probes) (cmd : Option Commands) (fmt : OutputFormat) :
    Except String (Option Rendered) :=
  match cmd with
  | none => .ok none
  | some c =>
      match runCommand p c with
      | .error e => .error e
      | .ok r =>
          match fmt with
          | .Json => .ok (some (.json r.serialize))
          | .Text => .ok (some (.text r.display))

/-- The error of the probe that command `c` would consult, if it fails. -/
def errOf {α : Type} : Except String α → Option String
  | .error e => some e
  | .ok _ => none

/-- The outcome of the probe consulted by each command. -/
def probeErr (p : Probes) : Commands → Option String
  | .Date => errOf p.date
  | .Time => errOf p.time
  | .Datetime => errOf p.datetime
  | .Dns => errOf p.dns
  | .Hostname => errOf p.hostname
  | .Username => errOf p.username
  | .DeviceName => errOf p.device_name
  | .Os => errOf p.os
  | .Architecture => errOf p.architecture
  | .Cpu => errOf p.cpus

mutual

/-- The scalar leaves of a structured value, in serialization order: the
concrete strings and numbers a JSON document for it would contain. -/
def jsonLeaves : JValue → List String
  | .str s => [s]
  | .num n => [toString n]
  | .arr xs => jsonLeavesList xs
  | .obj fs => jsonLeavesFields fs

/-- The leaves of a list of structured values. -/
def jsonLeavesList : List JValue → List String
  | [] => []
  | x :: xs => jsonLeaves x ++ jsonLeavesList xs

/-- The leaves of the field list of a structured object (keys are envelope
markers, not payload, and are not collected). -/
def jsonLeavesFields : List (String × JValue) → List String
  | [] => []
  | f :: fs => jsonLeaves f.2 ++ jsonLeavesFields fs

end

/-- The underlying field values of a command result, each rendered as a
string, in the declaration order of the variant's payload. -/
def CommandResult.leafValues : CommandResult → List String
  | .Date d => [d.day_name, toString (d.day_number : Int), d.month_name,
      toString d.year, toString (d.week_number : Int)]
  | .Time t => [t.time, t.offset, t.deviation]
  | .Datetime dt => [dt.date.day_name, toString (dt.date.day_number : Int),
      dt.date.month_name, toString dt.date.year,
      toString (dt.date.week_number : Int), dt.time.time, dt.time.offset,
      dt.time.deviation]
  | .Dns dns => dns
  | .Hostname n => [n.value]
  | .Username n => [n.value]
  | .DeviceName n => [n.value]
  | .Os n => [n.value]
  | .Architecture n => [n.value]
  | .Cpu c => [c.brand, toString (c.core_count : Int),
      toString (c.frequency : Int)]

/-! ## Theorems -/

theorem dedupRust_sublist {α : Type} [DecidableEq α] (l : List α) :
    List.Sublist (dedupRust l) l := by
  induction l using dedupRust.induct with
  | case1 => simp [dedupRust]
  | case2 a => simp [dedupRust]
  | case3 b t ih =>
      rw [dedupRust, if_pos rfl]
      exact ih.trans ((List.sublist_cons_self b t).cons_cons b)
  | case4 a b t hab ih =>
      rw [dedupRust, if_neg hab]
      exact ih.cons_cons a

theorem dedupRust_head {α : Type} [DecidableEq α] (a : α) (t : List α) :
    ∃ l', dedupRust (a :: t) = a :: l' := by
  induction t generalizing a with
  | nil => exact ⟨[], by rw [dedupRust]⟩
  | cons b t ih =>
      by_cases hab : a = b
      · subst hab
        obtain ⟨l', hl'⟩ := ih a
        exact ⟨l', by rw [dedupRust, if_pos rfl]; exact hl'⟩
      · exact ⟨dedupRust (b :: t), by rw [dedupRust, if_neg hab]⟩

theorem dedupRust_chain {α : Type} [DecidableEq α] (l : List α) :
    (dedupRust l).Chain' (· ≠ ·) := by
  induction l using dedupRust.induct with
  | case1 => simp [dedupRust]
  | case2 a => simp [dedupRust]
  | case3 b t ih =>
      rw [dedupRust, if_pos rfl]; exact ih
  | case4 a b t hab ih =>
      rw [dedupRust, if_neg hab]
      obtain ⟨l', hl'⟩ := dedupRust_head b t
      rw [hl'] at ih ⊢
      exact List.Chain'.cons hab ih

theorem mem_dedupRust {α : Type} [DecidableEq α] {x : α} {l : List α}
    (hx : x ∈ l) : x ∈ dedupRust l := by
  induction l using dedupRust.induct with
  | case1 => simp at hx
  | case2 a => simpa [dedupRust] using hx
  | case3 b t ih =>
      rw [dedupRust, if_pos rfl]
      apply ih
      simp only [List.mem_cons] at hx ⊢
      tauto
  | case4 a b t hab ih =>
      rw [dedupRust, if_neg hab]
      simp only [List.mem_cons] at hx ⊢
      rcases hx with rfl | hx
      · exact Or.inl rfl
      · exact Or.inr (ih (List.mem_cons.mpr hx))

/-- Two strings with the same character data are equal. -/
theorem str_eq_of_data (a b : String) (h : a.data = b.data) : a = b := by
  cases a; cases b; cases h; rfl

/-- Appending strings appends their character data. -/
theorem str_data_append (a b : String) : (a ++ b).data = a.data ++ b.data := rfl

/-- C3: the named-value wrapper is total on the kinds that exist and always
serializes to a single-entry mapping keyed by its field kind — but the only
field kinds are `"hostname"`, `"username"` and `"device_name"`: no `Named`
value carries an OS or architecture key, because `output.rs` defines no such
variant even though `system.rs`'s `os()` and `architecture()` request them. -/
theorem C3_named_wrapper_kinds :
    (∀ (value : String) (k : NamedKind), ∃ n, create_named value k = Except.ok n ∧
      n.value = value) ∧
    (∀ n : Named, n.serialize = JValue.obj [(n.key, JValue.str n.value)]) ∧
    (∀ n : Named, n.key = "hostname" ∨ n.key = "username" ∨ n.key = "device_name") ∧
    (∀ n : Named, n.key ≠ "os" ∧ n.key ≠ "architecture") := by
  refine ⟨fun value k => ?_, fun n => rfl, fun n => ?_, fun n => ?_⟩
  · cases k <;> exact ⟨_, rfl, rfl⟩
  · cases n <;> simp [Named.key]
  · cases n <;> refine ⟨?_, ?_⟩ <;> simp [Named.key]

/-- C4: the text projection of a `Date` is
`"{day_name}, {day_number} {month_name}, {year}, week {week_number}"`; at the
spec's example it is exactly `"Saturday, 8 April, 2023, week 14"`. -/
theorem C4_date_text :
    (∀ d : Date, d.display = d.day_name ++ ", " ++ toString d.day_number ++ " "
        ++ d.month_name ++ ", " ++ toString d.year ++ ", week "
        ++ toString d.week_number) ∧
    Date.display ⟨"Saturday", 8, "April", 2023, 14⟩
      = "Saturday, 8 April, 2023, week 14" := by
  constructor
  · intro d
    apply str_eq_of_data
    simp [Date.display, str_data_append, List.append_assoc]
  · decide

/-- C2: `impl Display for DiskInfo` has no division-by-zero guard: at
`total_space_bytes = 0` (hence `free_space_bytes = 0` by the invariant) the
IEEE-754 quotient is NaN and the rendered line contains `"NaN% free)"` —
not the `0` the spec requires.  For nonzero totals the percentage is the
claimed `round(free/total*100)`. -/
theorem C2_zero_total_renders_nan :
    free_space_percentage 0 0 = F64Percent.nan ∧
    DiskInfo.display ⟨"disk0", "SSD", 0, 0⟩
      = "\x1b[1;36mdisk0\x1b[0m, \x1b[97mSSD\x1b[0m, \x1b[32m0 B\x1b[0m free of 0 B (\x1b[32mNaN\x1b[0m% free)" ∧
    List.IsInfix "NaN".data (DiskInfo.display ⟨"disk0", "SSD", 0, 0⟩).data ∧
    free_space_percentage 1 3 = F64Percent.val 33 ∧
    free_space_percentage 1 2 = F64Percent.val 50 := by
  refine ⟨rfl, by decide, ⟨"\x1b[1;36mdisk0\x1b[0m, \x1b[97mSSD\x1b[0m, \x1b[32m0 B\x1b[0m free of 0 B (\x1b[32m".data, "\x1b[0m% free)".data, by decide⟩, ?_, ?_⟩
  · simp [free_space_percentage]
    norm_num [round_eq]
  · simp [free_space_percentage]
    norm_num [round_eq]

theorem uniqueByGo_sublist {α β : Type} [DecidableEq β] (key : α → β)
    (l : List α) : ∀ seen, List.Sublist (uniqueByGo key seen l) l := by
  induction l with
  | nil => intro seen; simp [uniqueByGo]
  | cons x xs ih =>
      intro seen
      rw [uniqueByGo]
      by_cases hx : key x ∈ seen
      · rw [if_pos hx]
        exact (ih seen).trans (List.sublist_cons_self x xs)
      · rw [if_neg hx]
        exact (ih (key x :: seen)).cons_cons x

theorem uniqueByGo_unseen {α β : Type} [DecidableEq β] (key : α → β)
    (l : List α) : ∀ seen x, x ∈ uniqueByGo key seen l → key x ∉ seen := by
  induction l with
  | nil => intro seen x hx; simp [uniqueByGo] at hx
  | cons y ys ih =>
      intro seen x hx
      rw [uniqueByGo] at hx
      by_cases hy : key y ∈ seen
      · rw [if_pos hy] at hx
        exact ih seen x hx
      · rw [if_neg hy] at hx
        rcases List.mem_cons.mp hx with rfl | hx
        · exact hy
        · have := ih (key y :: seen) x hx
          exact fun hs => this (List.mem_cons_of_mem _ hs)

theorem uniqueByGo_keys_nodup {α β : Type} [DecidableEq β] (key : α → β)
    (l : List α) : ∀ seen, ((uniqueByGo key seen l).map key).Nodup := by
  induction l with
  | nil => intro seen; simp [uniqueByGo]
  | cons y ys ih =>
      intro seen
      rw [uniqueByGo]
      by_cases hy : key y ∈ seen
      · rw [if_pos hy]; exact ih seen
      · rw [if_neg hy]
        rw [List.map_cons, List.nodup_cons]
        refine ⟨fun hmem => ?_, ih (key y :: seen)⟩
        rcases List.mem_map.mp hmem with ⟨x, hx, hkx⟩
        exact uniqueByGo_unseen key ys (key y :: seen) x hx
          (hkx ▸ List.mem_cons_self _ _)

theorem uniqueByGo_first {α β : Type} [DecidableEq β] (key : α → β)
    (l : List α) : ∀ seen x, x ∈ uniqueByGo key seen l →
    l.find? (fun y => decide (key y = key x)) = some x := by
  induction l with
  | nil => intro seen x hx; simp [uniqueByGo] at hx
  | cons y ys ih =>
      intro seen x hx
      rw [uniqueByGo] at hx
      by_cases hy : key y ∈ seen
      · rw [if_pos hy] at hx
        have hne : key y ≠ key x := fun h =>
          uniqueByGo_unseen key ys seen x hx (h ▸ hy)
        rw [List.find?_cons, decide_eq_false hne]
        exact ih seen x hx
      · rw [if_neg hy] at hx
        rcases List.mem_cons.mp hx with rfl | hx
        · rw [List.find?_cons, decide_eq_true rfl]
        · have hne : key y ≠ key x := fun h =>
            uniqueByGo_unseen key ys (key y :: seen) x hx
              (h ▸ List.mem_cons_self _ _)
          rw [List.find?_cons, decide_eq_false hne]
          exact ih (key y :: seen) x hx

theorem uniqueByGo_covers {α β : Type} [DecidableEq β] (key : α → β)
    (l : List α) : ∀ seen y, y ∈ l →
    key y ∈ seen ∨ key y ∈ (uniqueByGo key seen l).map key := by
  induction l with
  | nil => intro seen y hy; simp at hy
  | cons x xs ih =>
      intro seen y hy
      rw [uniqueByGo]
      by_cases hx : key x ∈ seen
      · rw [if_pos hx]
        rcases List.mem_cons.mp hy with rfl | hy
        · exact Or.inl hx
        · exact ih seen y hy
      · rw [if_neg hx]
        rcases List.mem_cons.mp hy with rfl | hy
        · exact Or.inr (by simp)
        · rcases ih (key x :: seen) y hy with hs | hs
          · rcases List.mem_cons.mp hs with heq | hs
            · exact Or.inr (by rw [List.map_cons]; exact heq ▸ List.mem_cons_self _ _)
            · exact Or.inl hs
          · exact Or.inr (by rw [List.map_cons]; exact List.mem_cons_of_mem _ hs)

theorem collectExcept_map_ok (l : List RawDisk)
    (ds : List DiskInfo) (h : collectExcept (l.map diskConv) = .ok ds) :
    (∀ r ∈ l, r.nameValid = true) ∧ ds = l.map diskConvT := by
  induction l generalizing ds with
  | nil =>
      simp [collectExcept] at h
      subst h
      exact ⟨by simp, rfl⟩
  | cons r rs ih =>
      by_cases hv : r.nameValid
      · cases hrest : collectExcept (rs.map diskConv) with
        | error e =>
            simp only [List.map_cons, collectExcept, diskConv, if_pos hv,
              hrest] at h
            exact Except.noConfusion h
        | ok as =>
            simp only [List.map_cons, collectExcept, diskConv, if_pos hv,
              hrest, Except.ok.injEq] at h
            obtain ⟨hall, hmap⟩ := ih as hrest
            refine ⟨?_, ?_⟩
            · intro x hx
              rcases List.mem_cons.mp hx with rfl | hx
              · exact hv
              · exact hall x hx
            · rw [← h, List.map_cons, ← hmap, diskConvT]
      · simp only [List.map_cons, collectExcept, diskConv, if_neg hv] at h
        exact Except.noConfusion h

theorem find?_congr_pred {α : Type} (p q : α → Bool) :
    ∀ l : List α, (∀ y ∈ l, p y = q y) → l.find? p = l.find? q := by
  intro l
  induction l with
  | nil => intro _; rfl
  | cons x xs ih =>
      intro hpq
      rw [List.find?_cons, List.find?_cons,
        hpq x (List.mem_cons_self _ _)]
      cases hq : q x
      · exact ih fun y hy => hpq y (List.mem_cons_of_mem _ hy)
      · rfl

/-- C10: when `list_disks` succeeds, the result has at most one `DiskInfo`
per distinct disk name (the names are pairwise distinct), the relative order
of the kept disks follows the enumeration order (the name sequence is a
sublist of the enumerated one), each result entry is the conversion of the
*first* enumerated disk bearing its name, and every enumerated disk's name is
still represented. -/
theorem C10_list_disks_unique_by_name (raw : List RawDisk)
    (ds : List DiskInfo) (h : list_disks raw = Except.ok ds) :
    (ds.map DiskInfo.name).Nodup ∧
    List.Sublist (ds.map DiskInfo.name) (raw.map RawDisk.name) ∧
    (∀ d ∈ ds, ∃ r, raw.find? (fun r => r.name == d.name) = some r ∧
      diskConv r = Except.ok d) ∧
    (∀ r ∈ raw, ∃ d ∈ ds, d.name = r.name) := by
  rw [list_disks] at h
  obtain ⟨hvalidU, hds⟩ := collectExcept_map_ok (uniqueBy diskKey raw) ds h
  have hvalidRaw : ∀ r ∈ raw, r.nameValid = true := by
    intro r hr
    rcases uniqueByGo_covers diskKey raw [] r hr with hs | hs
    · simp at hs
    · rcases List.mem_map.mp hs with ⟨x, hxu, hkx⟩
      have hk : x.name = r.name ∧ x.nameValid = r.nameValid := by
        rw [diskKey, diskKey] at hkx
        exact ⟨congrArg Prod.fst hkx, congrArg Prod.snd hkx⟩
      rw [← hk.2]
      exact hvalidU x hxu
  have hnames : ds.map DiskInfo.name = (uniqueBy diskKey raw).map RawDisk.name := by
    rw [hds, List.map_map]
    rfl
  have hkeysnodup := uniqueByGo_keys_nodup diskKey raw []
  refine ⟨?_, ?_, ?_, ?_⟩
  · rw [hnames]
    have : (uniqueBy diskKey raw).map RawDisk.name
        = ((uniqueBy diskKey raw).map diskKey).map Prod.fst := by
      rw [List.map_map]; rfl
    rw [this]
    refine List.Nodup.map_on ?_ hkeysnodup
    intro x hx y hy hxy
    rcases List.mem_map.mp hx with ⟨a, hau, rfl⟩
    rcases List.mem_map.mp hy with ⟨b, hbu, rfl⟩
    have hva := hvalidU a hau
    have hvb := hvalidU b hbu
    rw [diskKey, diskKey] at hxy ⊢
    simp only at hxy
    rw [hva, hvb, hxy]
  · rw [hnames]
    exact List.Sublist.map RawDisk.name (uniqueByGo_sublist diskKey raw [])
  · intro d hd
    rw [hds] at hd
    rcases List.mem_map.mp hd with ⟨x, hxu, rfl⟩
    refine ⟨x, ?_, ?_⟩
    · have hfk := uniqueByGo_first diskKey raw [] x hxu
      have : raw.find? (fun r => r.name == (diskConvT x).name)
          = raw.find? (fun y => decide (diskKey y = diskKey x)) := by
        refine find?_congr_pred _ _ raw fun y hy => ?_
        have hvy := hvalidRaw y hy
        have hvx := hvalidU x hxu
        by_cases hnm : y.name = x.name
        · simp [diskKey, diskConvT, Prod.ext_iff, hnm, hvy, hvx]
        · simp [diskKey, diskConvT, Prod.ext_iff, hnm]
      rw [this]
      exact hfk
    · rw [diskConv, if_pos (hvalidU x hxu), diskConvT]
  · intro r hr
    rcases uniqueByGo_covers diskKey raw [] r hr with hs | hs
    · simp at hs
    · rcases List.mem_map.mp hs with ⟨x, hxu, hkx⟩
      refine ⟨diskConvT x, ?_, ?_⟩
      · rw [hds]
        exact List.mem_map.mpr ⟨x, hxu, rfl⟩
      · rw [diskConvT]
        rw [diskKey, diskKey] at hkx
        exact congrArg Prod.fst hkx

/-- Witness for C10 on a concrete enumeration with a repeated name `"a"`:
only the first `"a"` disk is kept, before `"b"`. -/
theorem C10_list_disks_unique_by_name_witness :
    list_disks
        [⟨"a", true, "SSD", 100, 50⟩, ⟨"b", true, "HDD", 10, 5⟩,
          ⟨"a", true, "SSD", 7, 3⟩]
      = Except.ok [⟨"a", "SSD", 100, 50⟩, ⟨"b", "HDD", 10, 5⟩] ∧
    (([⟨"a", "SSD", 100, 50⟩, ⟨"b", "HDD", 10, 5⟩] :
        List DiskInfo).map DiskInfo.name).Nodup ∧
    List.Sublist
      (([⟨"a", "SSD", 100, 50⟩, ⟨"b", "HDD", 10, 5⟩] :
          List DiskInfo).map DiskInfo.name)
      (([⟨"a", true, "SSD", 100, 50⟩, ⟨"b", true, "HDD", 10, 5⟩,
          ⟨"a", true, "SSD", 7, 3⟩] : List RawDisk).map RawDisk.name) ∧
    (∀ d ∈ ([⟨"a", "SSD", 100, 50⟩, ⟨"b", "HDD", 10, 5⟩] : List DiskInfo),
      ∃ r, ([⟨"a", true, "SSD", 100, 50⟩, ⟨"b", true, "HDD", 10, 5⟩,
          ⟨"a", true, "SSD", 7, 3⟩] : List RawDisk).find?
            (fun r => r.name == d.name) = some r ∧
        diskConv r = Except.ok d) ∧
    (∀ r ∈ ([⟨"a", true, "SSD", 100, 50⟩, ⟨"b", true, "HDD", 10, 5⟩,
        ⟨"a", true, "SSD", 7, 3⟩] : List RawDisk),
      ∃ d ∈ ([⟨"a", "SSD", 100, 50⟩, ⟨"b", "HDD", 10, 5⟩] : List DiskInfo),
        d.name = r.name) :=
  ⟨rfl,
    C10_list_disks_unique_by_name
      [⟨"a", true, "SSD", 100, 50⟩, ⟨"b", true, "HDD", 10, 5⟩,
        ⟨"a", true, "SSD", 7, 3⟩]
      [⟨"a", "SSD", 100, 50⟩, ⟨"b", "HDD", 10, 5⟩] rfl⟩

/-- C1 counterexample: `Vec::dedup` only removes *consecutive* duplicates, so
for the nameserver addresses `["1.1.1.1", "8.8.8.8", "1.1.1.1"]` the output of
`list_dns_servers` contains `"1.1.1.1"` twice — the claim that each distinct
address appears exactly once is false. -/
theorem C1_counterexample :
    list_dns_servers ["1.1.1.1", "8.8.8.8", "1.1.1.1"]
      = ["1.1.1.1", "8.8.8.8", "1.1.1.1"] ∧
    (list_dns_servers ["1.1.1.1", "8.8.8.8", "1.1.1.1"]).count "1.1.1.1" ≠ 1 := by
  decide

/-- C1 (amended): `list_dns_servers` removes only *consecutive* duplicate
addresses, keeping the first element of each run: no two adjacent output
entries are equal, the output is a sublist of the (truncated) input — so
first-seen order is preserved — and every input address still occurs in the
output; on the spec's example `["1.1.1.1", "1.1.1.1", "8.8.8.8"]`, whose
duplicates are adjacent, the output is `["1.1.1.1", "8.8.8.8"]` as claimed. -/
theorem C1_dedup_consecutive (l : List String) :
    (list_dns_servers l).Chain' (· ≠ ·) ∧
    List.Sublist (list_dns_servers l) (l.map truncAtColon) ∧
    (∀ s, s ∈ l.map truncAtColon → s ∈ list_dns_servers l) ∧
    list_dns_servers ["1.1.1.1", "1.1.1.1", "8.8.8.8"] = ["1.1.1.1", "8.8.8.8"] :=
  ⟨dedupRust_chain _, dedupRust_sublist _,
    fun _ hs => mem_dedupRust hs, by decide⟩

/-- Witness for C1's amended theorem at the spec's example list. -/
theorem C1_dedup_consecutive_witness :
    "8.8.8.8" ∈ list_dns_servers ["1.1.1.1", "1.1.1.1", "8.8.8.8"] :=
  (C1_dedup_consecutive ["1.1.1.1", "1.1.1.1", "8.8.8.8"]).2.2.1 "8.8.8.8"
    (by decide)

/-- C9: every string returned by `list_dns_servers` is the textual form of a
configured nameserver socket address truncated at its first `':'`; in
particular no returned string contains `':'`, so the port is always stripped
and an IPv6 address is cut off at its first colon rather than returned
whole. -/
theorem C9_truncated_at_first_colon (l : List String) (s : String)
    (hs : s ∈ list_dns_servers l) :
    (∃ a, a ∈ l ∧ s = truncAtColon a) ∧ ':' ∉ s.data := by
  have hsub := (dedupRust_sublist (l.map truncAtColon)).subset hs
  rcases List.mem_map.mp hsub with ⟨a, ha, rfl⟩
  refine ⟨⟨a, ha, rfl⟩, fun hc => ?_⟩
  have hp := List.mem_takeWhile_imp hc
  simp at hp

/-- Witness for C9 on an IPv6 nameserver: `"[2001:db8::1]:53"` is cut at its
first colon, yielding `"[2001"`. -/
theorem C9_truncated_at_first_colon_witness :
    "[2001" ∈ list_dns_servers ["[2001:db8::1]:53"] ∧
    ((∃ a, a ∈ (["[2001:db8::1]:53"] : List String) ∧ "[2001" = truncAtColon a) ∧
      ':' ∉ "[2001".data) :=
  ⟨by decide,
    C9_truncated_at_first_colon ["[2001:db8::1]:53"] "[2001" (by decide)⟩

theorem jsonLeavesList_str (l : List String) :
    jsonLeavesList (l.map JValue.str) = l := by
  induction l with
  | nil => rfl
  | cons s t ih => rw [List.map_cons, jsonLeavesList, jsonLeaves, ih]; rfl

theorem toString_intCast_nat (n : Nat) : toString (n : Int) = toString n := rfl

theorem substr_self (a : String) : List.IsInfix a.data a.data :=
  List.infix_refl _

theorem substr_appL {v a : String} (b : String)
    (h : List.IsInfix v.data a.data) : List.IsInfix v.data (a ++ b).data :=
  h.trans ⟨[], b.data, by simp [str_data_append]⟩

theorem substr_appR {v b : String} (a : String)
    (h : List.IsInfix v.data b.data) : List.IsInfix v.data (a ++ b).data :=
  h.trans ⟨a.data, [], by simp [str_data_append]⟩

theorem substr_styled (code v : String) :
    List.IsInfix v.data (styled code v).data :=
  substr_appL _ (substr_appR _ (substr_self v))

theorem substr_joinNl (l : List String) (v : String) (hv : v ∈ l) :
    List.IsInfix v.data (joinNl l).data := by
  induction l with
  | nil => simp at hv
  | cons s t ih =>
      rcases List.mem_cons.mp hv with rfl | hv
      · cases t with
        | nil => exact substr_self v
        | cons x t' => exact substr_appL _ (substr_appL _ (substr_self v))
      · cases t with
        | nil => simp at hv
        | cons x t' =>
            rw [joinNl]
            exact substr_appR _ (ih hv)

/-- C8: with no command selected, `main` consults no probe and emits
nothing, succeeding: for every possible collection of probe outcomes and
either output format, the run is `ok` (exit code zero) with no output. -/
theorem C8_no_command_is_clean_noop (p : Probes) (fmt : OutputFormat) :
    mainModel p none fmt = Except.ok none := rfl

/-- C6: the text projection of the `Dns` variant joins the server lines with
a newline between adjacent entries and no trailing separator, and renders
the empty list as the empty string. -/
theorem C6_dns_join_newline :
    CommandResult.display (.Dns []) = "" ∧
    ∀ s l, CommandResult.display (.Dns (s :: l))
      = s ++ l.foldr (fun x acc => "\n" ++ x ++ acc) "" := by
  refine ⟨rfl, fun s l => ?_⟩
  induction l generalizing s with
  | nil =>
      apply str_eq_of_data
      simp [CommandResult.display, joinNl, str_data_append]
  | cons x xs ih =>
      have hx := ih x
      apply str_eq_of_data
      rw [List.foldr_cons]
      simp only [CommandResult.display, joinNl] at hx ⊢
      rw [str_data_append, str_data_append, hx]
      simp [str_data_append]

theorem errOf_eq_some {α : Type} {x : Except String α} {e : String}
    (h : errOf x = some e) : x = Except.error e := by
  cases x with
  | error a =>
      simp only [errOf, Option.some.injEq] at h
      rw [h]
  | ok a => simp [errOf] at h

/-- C5: whenever the probe consulted by a command fails, `main` propagates a
single error whose message contains the fixed per-command context phrase and
the original failure description, and emits nothing on the success path —
there is no retry and no partial or default output. -/
theorem C5_probe_failure_context (p : Probes) (c : Commands)
    (fmt : OutputFormat) (e : String) (h : probeErr p c = some e) :
    mainModel p (some c) fmt = Except.error (contextPhrase c ++ ": " ++ e) ∧
    List.IsInfix (contextPhrase c).data (contextPhrase c ++ ": " ++ e).data ∧
    List.IsInfix e.data (contextPhrase c ++ ": " ++ e).data := by
  refine ⟨?_, substr_appL _ (substr_appL _ (substr_self _)),
    substr_appR _ (substr_self _)⟩
  cases c <;>
    simp only [probeErr] at h <;>
    simp [mainModel, runCommand, withContext, Except.map, errOf_eq_some h,
      contextPhrase]

/-- Witness for C5: a date probe failing with `"boom"` surfaces as the
single combined error `"looking up the system's date failed: boom"`. -/
theorem C5_probe_failure_context_witness :
    mainModel
        ⟨Except.error "boom", Except.error "boom", Except.error "boom",
          Except.error "boom", Except.error "boom", Except.error "boom",
          Except.error "boom", Except.error "boom", Except.error "boom",
          Except.error "boom"⟩
        (some Commands.Date) OutputFormat.Text
      = Except.error (contextPhrase Commands.Date ++ ": " ++ "boom") ∧
    List.IsInfix (contextPhrase Commands.Date).data
      (contextPhrase Commands.Date ++ ": " ++ "boom").data ∧
    List.IsInfix "boom".data
      (contextPhrase Commands.Date ++ ": " ++ "boom").data :=
  C5_probe_failure_context
    ⟨Except.error "boom", Except.error "boom", Except.error "boom",
      Except.error "boom", Except.error "boom", Except.error "boom",
      Except.error "boom", Except.error "boom", Except.error "boom",
      Except.error "boom"⟩
    Commands.Date OutputFormat.Text "boom" rfl

theorem date_display_has_fields (d : Date) :
    List.IsInfix d.day_name.data d.display.data ∧
    List.IsInfix (toString d.day_number).data d.display.data ∧
    List.IsInfix d.month_name.data d.display.data ∧
    List.IsInfix (toString d.year).data d.display.data ∧
    List.IsInfix (toString d.week_number).data d.display.data := by
  simp only [Date.display]
  exact ⟨substr_appL _ (substr_appL _ (substr_appL _ (substr_self _))),
    substr_appL _ (substr_appL _ (substr_appR _ (substr_appL _ (substr_appL _
      (substr_appR _ (substr_self _)))))),
    substr_appL _ (substr_appL _ (substr_appR _ (substr_appR _ (substr_self _)))),
    substr_appL _ (substr_appR _ (substr_appR _ (substr_self _))),
    substr_appR _ (substr_appR _ (substr_self _))⟩

theorem time_display_has_fields (t : Time) :
    List.IsInfix t.time.data t.display.data ∧
    List.IsInfix t.offset.data t.display.data ∧
    List.IsInfix t.deviation.data t.display.data := by
  simp only [Time.display]
  exact ⟨substr_appL _ (substr_appL _ (substr_appL _ (substr_appL _
      (substr_appL _ (substr_self _))))),
    substr_appL _ (substr_appL _ (substr_appL _ (substr_appR _
      (substr_self _)))),
    substr_appL _ (substr_appR _ (substr_self _))⟩

theorem cpu_display_has_fields (c : Cpu) :
    List.IsInfix c.brand.data c.display.data ∧
    List.IsInfix (toString c.core_count).data c.display.data ∧
    List.IsInfix (toString c.frequency).data c.display.data := by
  simp only [Cpu.display]
  exact ⟨substr_appL _ (substr_appL _ (substr_appL _ (substr_appL _
      (substr_appL _ (substr_styled _ _))))),
    substr_appL _ (substr_appL _ (substr_appL _ (substr_appR _
      (substr_styled _ _)))),
    substr_appL _ (substr_appR _ (substr_styled _ _))⟩

/-- C7: the two projections over `CommandResult` are both total (they are
functions defined by exhaustive matches over the ten variants) and agree on
the underlying values: for every result, the scalar leaves of the structured
projection are exactly the variant's field values, and every one of those
values also occurs verbatim inside the text projection — no field value is
present in one projection but absent from the other. -/
theorem C7_projections_agree (r : CommandResult) :
    jsonLeaves r.serialize = r.leafValues ∧
    ∀ v ∈ r.leafValues, List.IsInfix v.data r.display.data := by
  cases r with
  | Date d =>
      refine ⟨by simp [CommandResult.serialize, CommandResult.leafValues,
        Date.serialize, jsonLeaves, jsonLeavesFields], fun v hv => ?_⟩
      obtain ⟨h1, h2, h3, h4, h5⟩ := date_display_has_fields d
      simp only [CommandResult.leafValues, List.mem_cons,
        List.not_mem_nil, or_false] at hv
      rcases hv with rfl | rfl | rfl | rfl | rfl
      · exact h1
      · rw [toString_intCast_nat]; exact h2
      · exact h3
      · exact h4
      · rw [toString_intCast_nat]; exact h5
  | Time t =>
      refine ⟨by simp [CommandResult.serialize, CommandResult.leafValues,
        Time.serialize, jsonLeaves, jsonLeavesFields], fun v hv => ?_⟩
      obtain ⟨h1, h2, h3⟩ := time_display_has_fields t
      simp only [CommandResult.leafValues, List.mem_cons,
        List.not_mem_nil, or_false] at hv
      rcases hv with rfl | rfl | rfl
      · exact h1
      · exact h2
      · exact h3
  | Datetime dt =>
      refine ⟨by simp [CommandResult.serialize, CommandResult.leafValues,
        Datetime.serialize, Date.serialize, Time.serialize, jsonLeaves,
        jsonLeavesFields], fun v hv => ?_⟩
      obtain ⟨h1, h2, h3, h4, h5⟩ := date_display_has_fields dt.date
      obtain ⟨g1, g2, g3⟩ := time_display_has_fields dt.time
      simp only [CommandResult.leafValues, List.mem_cons,
        List.not_mem_nil, or_false] at hv
      have hL : ∀ w : String, List.IsInfix w.data dt.date.display.data →
          List.IsInfix w.data (CommandResult.display (.Datetime dt)).data :=
        fun w hw => substr_appL _ (substr_appL _ hw)
      have hR : ∀ w : String, List.IsInfix w.data dt.time.display.data →
          List.IsInfix w.data (CommandResult.display (.Datetime dt)).data :=
        fun w hw => substr_appR _ hw
      rcases hv with rfl | rfl | rfl | rfl | rfl | rfl | rfl | rfl
      · exact hL _ h1
      · rw [toString_intCast_nat]; exact hL _ h2
      · exact hL _ h3
      · exact hL _ h4
      · rw [toString_intCast_nat]; exact hL _ h5
      · exact hR _ g1
      · exact hR _ g2
      · exact hR _ g3
  | Dns dns =>
      refine ⟨by simp [CommandResult.serialize, CommandResult.leafValues,
        jsonLeaves, jsonLeavesList_str], fun v hv => ?_⟩
      exact substr_joinNl dns v hv
  | Hostname n =>
      refine ⟨by cases n <;> rfl, fun v hv => ?_⟩
      simp only [CommandResult.leafValues, List.mem_cons,
        List.not_mem_nil, or_false] at hv
      rw [hv]
      exact substr_self n.value
  | Username n =>
      refine ⟨by cases n <;> rfl, fun v hv => ?_⟩
      simp only [CommandResult.leafValues, List.mem_cons,
        List.not_mem_nil, or_false] at hv
      rw [hv]
      exact substr_self n.value
  | DeviceName n =>
      refine ⟨by cases n <;> rfl, fun v hv => ?_⟩
      simp only [CommandResult.leafValues, List.mem_cons,
        List.not_mem_nil, or_false] at hv
      rw [hv]
      exact substr_self n.value
  | Os n =>
      refine ⟨by cases n <;> rfl, fun v hv => ?_⟩
      simp only [CommandResult.leafValues, List.mem_cons,
        List.not_mem_nil, or_false] at hv
      rw [hv]
      exact substr_self n.value
  | Architecture n =>
      refine ⟨by cases n <;> rfl, fun v hv => ?_⟩
      simp only [CommandResult.leafValues, List.mem_cons,
        List.not_mem_nil, or_false] at hv
      rw [hv]
      exact substr_self n.value
  | Cpu c =>
      refine ⟨by simp [CommandResult.serialize, CommandResult.leafValues,
        Cpu.serialize, jsonLeaves, jsonLeavesFields], fun v hv => ?_⟩
      obtain ⟨h1, h2, h3⟩ := cpu_display_has_fields c
      simp only [CommandResult.leafValues, List.mem_cons,
        List.not_mem_nil, or_false] at hv
      rcases hv with rfl | rfl | rfl
      · exact h1
      · rw [toString_intCast_nat]; exact h2
      · rw [toString_intCast_nat]; exact h3

/-- Witness for C7 on the `Dns` variant holding one server: the structured
leaves equal the payload and the entry occurs in the text rendering. -/
theorem C7_projections_agree_witness :
    jsonLeaves (CommandResult.serialize (.Dns ["1.1.1.1"]))
      = CommandResult.leafValues (.Dns ["1.1.1.1"]) ∧
    List.IsInfix "1.1.1.1".data
      (CommandResult.display (.Dns ["1.1.1.1"])).data :=
  ⟨(C7_projections_agree (.Dns ["1.1.1.1"])).1,
    (C7_projections_agree (.Dns ["1.1.1.1"])).2 "1.1.1.1" (by decide)⟩

end Whatis
